import Mathlib

set_option maxRecDepth 100000

/-!
Verification of the fuzzy ingredient-matching retrieval engine of the
FoodSafetyScanner backend (`Brahim_AIT_LHAJ_ali/app.py`): construction of the
normalised-name lookup table (`INGREDIENT_LOOKUP`), the three-tier matcher
`fuzzy_match_ingredient` (the spec's `match_one`) and `retrieve_knowledge`
(the spec's `retrieve`), together with a faithful embedding of Python's
`difflib.SequenceMatcher.ratio` used by the third tier.

Modelling conventions: Python dicts become association lists kept in
insertion order (Python 3.7+ dicts iterate in insertion order, which the
containment tier depends on); Python floats become exact rationals `ℚ`
(the similarity ratio `2*M/T` and the `0.65` threshold are small exact
fractions); whitespace stripping is ASCII whitespace.
-/

/-- An ingredient record of the knowledge base `data.json`.
`id` is the unique identifier; matching uses only `ingredient` and `id`,
the remaining fields ride along into the report prompt. -/
structure IngredientRecord where
  id : Nat
  ingredient : String
  category : String
  effect_summary : String
  health_effect : String
deriving Repr, DecidableEq

/-- The lookup table `INGREDIENT_LOOKUP`: a Python dict from normalised
name to record, modelled as an association list in insertion order. -/
abbrev Lookup := List (String × IngredientRecord)

/-- Strip whitespace from both ends of a character list
(Python `str.strip()` restricted to ASCII whitespace). -/
def trimEnds (l : List Char) : List Char :=
  ((l.dropWhile Char.isWhitespace).reverse.dropWhile Char.isWhitespace).reverse

/-- Python `name.lower().strip()`, the normalisation applied to every
candidate and to every knowledge-base name before comparison. -/
def normalise (s : String) : String :=
  String.mk (trimEnds (s.data.map Char.toLower))

/-- Test `startsWithL p t`: `p` is a leading segment of `t`. -/
def startsWithL : List Char → List Char → Bool
  | [], _ => true
  | _ :: _, [] => false
  | a :: as, b :: bs => a == b && startsWithL as bs

/-- Test `containsL p t`: `p` occurs contiguously inside `t`.  The empty
pattern occurs in every text, exactly as Python's `"" in t`. -/
def containsL (p : List Char) : List Char → Bool
  | [] => startsWithL p []
  | c :: ts => startsWithL p (c :: ts) || containsL p ts

/-- Python string containment `p in t`. -/
def substrOf (p t : String) : Bool :=
  containsL p.data t.data

/-- One row of `find_longest_match`'s `j2len` table for the left-side
character `c`: entry `j` is the length of the common run ending at the
current left index and right index `j`.  The argument `ps` is the previous
row shifted one place right (so its head plays the role of `j2len[j-1]`,
missing entries reading as `0`). -/
def runRow (c : Char) : List Char → List Nat → List Nat
  | [], _ => []
  | b :: bs, ps => (if b == c then ps.headD 0 + 1 else 0) :: runRow c bs ps.tail

/-- Scan one row (produced at left index `i`) updating the current best
block `(besti, bestj, bestsize)`: only a strictly larger run wins, so the
earliest `i`, then the earliest `j`, is preferred on ties — exactly
difflib's tie-breaking. -/
def bestStep (i : Nat) (row : List Nat) (best : Nat × Nat × Nat) : Nat × Nat × Nat :=
  row.enum.foldl
    (fun acc jk => if acc.2.2 < jk.2 then (i + 1 - jk.2, jk.1 + 1 - jk.2, jk.2) else acc)
    best

/-- difflib's `find_longest_match` over the whole of `a` and `b`, returning
`(i, j, size)`.  Junk handling is omitted: autojunk only fires on strings of
length ≥ 200, far above the ingredient names at stake, and with no junk the
post-scan extension loops of CPython's implementation are no-ops. -/
def findLongestMatch (a b : List Char) : Nat × Nat × Nat :=
  (a.enum.foldl
    (fun st ic =>
      let row := runRow ic.2 b (0 :: st.1)
      (row, bestStep ic.1 row st.2))
    ([], (0, 0, 0))).2

/-- Total size `M` of difflib's matching blocks: the recursive decomposition
around the longest matching block (`get_matching_blocks`).  `fuel` only
bounds the recursion depth; `a.length + 1` always suffices because every
recursive call strictly shrinks the left-side window. -/
def matchTotal : Nat → List Char → List Char → Nat
  | 0, _, _ => 0
  | fuel + 1, a, b =>
    let m := findLongestMatch a b
    if m.2.2 = 0 then 0
    else
      matchTotal fuel (a.take m.1) (b.take m.2.1) + m.2.2 +
        matchTotal fuel (a.drop (m.1 + m.2.2)) (b.drop (m.2.1 + m.2.2))

/-- difflib `SequenceMatcher(None, a, b).ratio()`, i.e. `2*M/T` where `M`
is the total size of the matching blocks and `T` the sum of the lengths;
difflib returns `1.0` when both strings are empty.  The float quotient is
embedded as the exact rational `mkRat (2*M) T`. -/
def ratio (a b : String) : ℚ :=
  if a.data.length + b.data.length = 0 then 1
  else mkRat (2 * matchTotal (a.data.length + 1) a.data b.data)
    (a.data.length + b.data.length)

/-- The third tier's scan (app.py lines 163-169): fold over the table
tracking the best similarity score and its record; only a strictly greater
score replaces the current best. -/
def bestPass (lookup : Lookup) (n : String) : ℚ × Option IngredientRecord :=
  lookup.foldl
    (fun acc kr => if acc.1 < ratio n kr.1 then (ratio n kr.1, some kr.2) else acc)
    (0, none)

/-- The matcher `fuzzy_match_ingredient` (app.py lines 145-175): normalise, then
tier 1 exact dict hit, tier 2 first containment hit in table order,
tier 3 best similarity score against the threshold; `none` is Python's
`None` ("no match"). -/
def fuzzy_match_ingredient (lookup : Lookup) (name : String) (threshold : ℚ) :
    Option IngredientRecord :=
  let normalised := normalise name
  match lookup.find? (fun kr => kr.1 == normalised) with
  | some kr => some kr.2
  | none =>
    match lookup.find? (fun kr => substrOf kr.1 normalised || substrOf normalised kr.1) with
    | some kr => some kr.2
    | none =>
      let best := bestPass lookup normalised
      if threshold ≤ best.1 then best.2 else none

/-- The default threshold `0.65` of `fuzzy_match_ingredient`, used by
`retrieve_knowledge`, as an exact rational. -/
def defaultThreshold : ℚ := mkRat 13 20

/-- The spec's per-candidate result: `Matched(record)` or
`Unmatched(original_name)`. -/
inductive MatchResult where
  | Matched (record : IngredientRecord)
  | Unmatched (original : String)
deriving Repr, DecidableEq

/-- The spec's `match_one`, wrapping `fuzzy_match_ingredient`'s Python
result (`record` or `None`) into the spec's `MatchResult`: a `None` from
the matcher is reported as `Unmatched` carrying the original,
un-normalised candidate, which is exactly what `retrieve_knowledge`
appends to its unmatched output. -/
def match_one (lookup : Lookup) (candidate : String) (threshold : ℚ) : MatchResult :=
  match fuzzy_match_ingredient lookup candidate threshold with
  | some r => MatchResult.Matched r
  | none => MatchResult.Unmatched candidate

/-- The running state of `retrieve_knowledge`'s loop (app.py lines
184-194).  The lookup table is carried through explicitly — Python reads
the module-global `INGREDIENT_LOOKUP` on every iteration — so that its
preservation can be stated rather than assumed. -/
structure RetState where
  lookup : Lookup
  matched : List IngredientRecord
  unmatched : List String
  seen_ids : List Nat
deriving Repr, DecidableEq

/-- One iteration of `retrieve_knowledge`'s loop: match the candidate at
the default threshold; a fresh id is appended to `matched` and recorded in
`seen_ids`; a repeated id is absorbed; a `None` match appends the original
candidate to `unmatched`. -/
def retrieveStep (st : RetState) (name : String) : RetState :=
  match fuzzy_match_ingredient st.lookup name defaultThreshold with
  | some record =>
    if record.id ∈ st.seen_ids then st
    else ⟨st.lookup, st.matched ++ [record], st.unmatched, st.seen_ids ++ [record.id]⟩
  | none => ⟨st.lookup, st.matched, st.unmatched ++ [name], st.seen_ids⟩

/-- Run `retrieve_knowledge`'s loop from the initial empty accumulators. -/
def runRetrieve (lookup : Lookup) (ingredient_names : List String) : RetState :=
  ingredient_names.foldl retrieveStep ⟨lookup, [], [], []⟩

/-- The retriever `retrieve_knowledge` (app.py lines 178-196): the `(matched, unmatched)`
pair produced by the loop. -/
def retrieve_knowledge (lookup : Lookup) (ingredient_names : List String) :
    List IngredientRecord × List String :=
  ((runRetrieve lookup ingredient_names).matched,
    (runRetrieve lookup ingredient_names).unmatched)

/-- Python dict assignment `d[k] = v`: an existing key keeps its position
and gets the new value (last write wins); a fresh key is appended at the
end of the iteration order. -/
def dictInsert (d : Lookup) (k : String) (v : IngredientRecord) : Lookup :=
  if d.any (fun p => p.1 == k) then
    d.map (fun p => if p.1 == k then (k, v) else p)
  else d ++ [(k, v)]

/-- Construction of `INGREDIENT_LOOKUP` (app.py lines 46-49): one dict
assignment per database entry under its normalised name. -/
def buildLookup (db : List IngredientRecord) : Lookup :=
  db.foldl (fun d entry => dictInsert d (normalise entry.ingredient) entry) []

/-- Dict read `d[k]`: the value stored under the first (in a dict: only)
occurrence of `k`. -/
def lookupVal (d : Lookup) (k : String) : Option IngredientRecord :=
  (d.find? (fun p => p.1 == k)).map (fun p => p.2)

/-- A raw `data.json` entry as the loader sees it: the `"ingredient"`
field may be absent (`none`), which models a JSON object lacking that key;
Python's `entry["ingredient"]` raises `KeyError` in that case. -/
structure RawEntry where
  id : Nat
  ingredient : Option String
  category : String
  effect_summary : String
  health_effect : String
deriving Repr, DecidableEq

/-- The only error the load loop can raise: Python's `KeyError` from
`entry["ingredient"]` on an entry without that field.  The code defines no
`InvalidRecordError` and performs no validation of its own. -/
inductive LoadError where
  | keyError
deriving Repr, DecidableEq

/-- The record stored for a raw entry whose name field is present. -/
def toRecord (e : RawEntry) (nm : String) : IngredientRecord :=
  ⟨e.id, nm, e.category, e.effect_summary, e.health_effect⟩

/-- The load loop of app.py lines 46-49 over raw entries: reading the
`"ingredient"` field of an entry that lacks it raises `KeyError`;
otherwise the entry is stored under its normalised name, with no check
whatsoever on the name's content (an empty name is accepted). -/
def buildLookupE (db : List RawEntry) : Except LoadError Lookup :=
  db.foldlM
    (fun d e =>
      match e.ingredient with
      | none => Except.error LoadError.keyError
      | some nm => Except.ok (dictInsert d (normalise nm) (toRecord e nm)))
    []

/-- Specification-side description of `retrieve_knowledge`'s dedup: keep
each record whose id has not been seen before, first occurrence first. -/
def dedupByIds (seen : List Nat) : List IngredientRecord → List IngredientRecord
  | [] => []
  | r :: rs =>
    if r.id ∈ seen then dedupByIds seen rs
    else r :: dedupByIds (seen ++ [r.id]) rs

/-- Sample records used by the concrete witnesses. -/
def sugarRec : IngredientRecord :=
  ⟨1, "Sugar", "sweetener", "raises blood sugar", "linked to obesity"⟩

def saltRec : IngredientRecord :=
  ⟨2, "Salt", "mineral", "raises blood pressure", "linked to hypertension"⟩

def citricRec : IngredientRecord :=
  ⟨3, "Citric Acid", "acidulant", "generally safe", "may erode enamel"⟩

def exDB : List IngredientRecord := [sugarRec, saltRec, citricRec]

def exLookup : Lookup := buildLookup exDB

/-- A raw entry whose `"ingredient"` field is present but empty. -/
def emptyNameEntry : RawEntry := ⟨7, some "", "additive", "no effect", "no known effect"⟩

/-! ### Master description of the retrieval loop

The loop appends, to whatever the accumulators hold, the first-seen-id
dedup of the stream of successful matches and the stream of unmatched
original names, while never touching the lookup table. -/

theorem retrieve_fold_spec :
    ∀ (names : List String) (st : RetState),
      names.foldl retrieveStep st =
        ⟨st.lookup,
          st.matched ++ dedupByIds st.seen_ids
            (names.filterMap (fun n => fuzzy_match_ingredient st.lookup n defaultThreshold)),
          st.unmatched ++ names.filter
            (fun n => (fuzzy_match_ingredient st.lookup n defaultThreshold).isNone),
          st.seen_ids ++ (dedupByIds st.seen_ids
            (names.filterMap
              (fun n => fuzzy_match_ingredient st.lookup n defaultThreshold))).map
              (fun r => r.id)⟩ := by
  intro names
  induction names with
  | nil => intro st; cases st; simp [dedupByIds]
  | cons n rest ih =>
    intro st
    simp only [List.foldl_cons]
    cases h : fuzzy_match_ingredient st.lookup n defaultThreshold with
    | none =>
      have hstep : retrieveStep st n =
          ⟨st.lookup, st.matched, st.unmatched ++ [n], st.seen_ids⟩ := by
        simp [retrieveStep, h]
      rw [hstep, ih]
      simp [List.filterMap_cons, h, List.filter_cons, List.append_assoc]
    | some r =>
      by_cases hseen : r.id ∈ st.seen_ids
      · have hstep : retrieveStep st n = st := by
          simp [retrieveStep, h, hseen]
        rw [hstep, ih]
        simp [List.filterMap_cons, h, List.filter_cons, dedupByIds, hseen]
      · have hstep : retrieveStep st n =
            ⟨st.lookup, st.matched ++ [r], st.unmatched, st.seen_ids ++ [r.id]⟩ := by
          simp [retrieveStep, h, hseen]
        rw [hstep, ih]
        simp [List.filterMap_cons, h, List.filter_cons, dedupByIds, hseen,
          List.append_assoc]

/-- The loop never writes the lookup table. -/
theorem runRetrieve_lookup (lookup : Lookup) (names : List String) :
    (runRetrieve lookup names).lookup = lookup := by
  rw [runRetrieve, retrieve_fold_spec]

/-- Closed form of `retrieve_knowledge`: matched is the first-seen-id dedup
of the stream of successful matches; unmatched is the subsequence of
candidates whose match came back `None`, verbatim and in order. -/
theorem retrieve_spec (lookup : Lookup) (names : List String) :
    retrieve_knowledge lookup names =
      (dedupByIds []
        (names.filterMap (fun n => fuzzy_match_ingredient lookup n defaultThreshold)),
       names.filter (fun n => (fuzzy_match_ingredient lookup n defaultThreshold).isNone)) := by
  rw [retrieve_knowledge, runRetrieve, retrieve_fold_spec]
  rfl

/-! ### Properties of the first-seen-id dedup -/

theorem dedupByIds_ids_fresh :
    ∀ (rs : List IngredientRecord) (seen : List Nat),
      ((dedupByIds seen rs).map (fun r => r.id)).Nodup ∧
      ∀ q ∈ dedupByIds seen rs, q.id ∉ seen := by
  intro rs
  induction rs with
  | nil => intro seen; simp [dedupByIds]
  | cons r rs ih =>
    intro seen
    by_cases hc : r.id ∈ seen
    · have hd : dedupByIds seen (r :: rs) = dedupByIds seen rs := by
        simp [dedupByIds, hc]
      rw [hd]; exact ih seen
    · have hd : dedupByIds seen (r :: rs) = r :: dedupByIds (seen ++ [r.id]) rs := by
        simp [dedupByIds, hc]
      obtain ⟨ihnd, ihfresh⟩ := ih (seen ++ [r.id])
      have hrid : r.id ∉ (dedupByIds (seen ++ [r.id]) rs).map (fun q => q.id) := by
        intro hmem
        rcases List.mem_map.mp hmem with ⟨q, hq, hqid⟩
        exact ihfresh q hq (by rw [hqid]; simp)
      rw [hd]
      refine ⟨?_, ?_⟩
      · rw [List.map_cons]
        exact List.nodup_cons.mpr ⟨hrid, ihnd⟩
      · intro q hq
        rcases List.mem_cons.mp hq with hq | hq
        · subst hq; exact hc
        · intro hqseen
          exact ihfresh q hq (List.mem_append.mpr (Or.inl hqseen))

theorem dedupByIds_covers :
    ∀ (rs : List IngredientRecord) (seen : List Nat) (r : IngredientRecord),
      r ∈ rs →
      (∃ q ∈ dedupByIds seen rs, q.id = r.id) ∨ r.id ∈ seen := by
  intro rs
  induction rs with
  | nil => intro seen r hmem; exact absurd hmem (List.not_mem_nil r)
  | cons q rs ih =>
    intro seen r hmem
    by_cases hc : q.id ∈ seen
    · have hd : dedupByIds seen (q :: rs) = dedupByIds seen rs := by
        simp [dedupByIds, hc]
      rw [hd]
      rcases List.mem_cons.mp hmem with hq | htail
      · subst hq; exact Or.inr hc
      · exact ih seen r htail
    · have hd : dedupByIds seen (q :: rs) = q :: dedupByIds (seen ++ [q.id]) rs := by
        simp [dedupByIds, hc]
      rw [hd]
      rcases List.mem_cons.mp hmem with hq | htail
      · subst hq
        exact Or.inl ⟨r, List.mem_cons_self r _, rfl⟩
      · rcases ih (seen ++ [q.id]) r htail with ⟨p, hp, hpid⟩ | hseen
        · exact Or.inl ⟨p, List.mem_cons_of_mem q hp, hpid⟩
        · rcases List.mem_append.mp hseen with h1 | h2
          · exact Or.inr h1
          · refine Or.inl ⟨q, List.mem_cons_self q _, ?_⟩
            exact (List.mem_singleton.mp h2).symm

/-! ### Generic list helpers -/

theorem find?_eq_of_first {α : Type} (p : α → Bool) :
    ∀ (l : List α) (i : Nat) (hi : i < l.length),
      p (l.get ⟨i, hi⟩) = true →
      (∀ j (hj : j < i), p (l.get ⟨j, Nat.lt_trans hj hi⟩) = false) →
      l.find? p = some (l.get ⟨i, hi⟩) := by
  intro l
  induction l with
  | nil => intro i hi; exact absurd hi (Nat.not_lt_zero i)
  | cons a l ih =>
    intro i hi hp hfirst
    cases i with
    | zero => exact List.find?_cons_of_pos l hp
    | succ i' =>
      have ha : p a = false := hfirst 0 (Nat.succ_pos i')
      rw [List.find?_cons_of_neg l (by simp [ha])]
      exact ih i' (Nat.lt_of_succ_lt_succ hi) hp
        (fun j hj => hfirst (j + 1) (Nat.succ_lt_succ hj))

theorem find?_beq_of_mem_nodup :
    ∀ (l : Lookup) (k : String) (r : IngredientRecord),
      (l.map Prod.fst).Nodup → (k, r) ∈ l →
      l.find? (fun p => p.1 == k) = some (k, r) := by
  intro l
  induction l with
  | nil => intro k r _ hmem; exact absurd hmem (List.not_mem_nil _)
  | cons q l ih =>
    intro k r hnd hmem
    rcases List.mem_cons.mp hmem with hq | htail
    · subst hq; exact List.find?_cons_of_pos l (by simp)
    · by_cases hk : q.1 = k
      · exfalso
        have hkin : k ∈ l.map Prod.fst :=
          List.mem_map.mpr ⟨(k, r), htail, rfl⟩
        have := (List.nodup_cons.mp hnd).1
        rw [hk] at this
        exact this hkin
      · have : ((fun p : String × IngredientRecord => p.1 == k) q) = false := by
          simpa using hk
        simp only [List.find?, this]
        exact ih k r (List.nodup_cons.mp hnd).2 htail

theorem find?_eq_none_of_all {α : Type} (p : α → Bool) (l : List α)
    (h : ∀ x ∈ l, p x = false) : l.find? p = none :=
  List.find?_eq_none.mpr (fun x hx => by simp [h x hx])

/-! ### Dict assignment: position kept, value overwritten, fresh key appended -/

theorem find?_set_map (k : String) (v : IngredientRecord) :
    ∀ d : Lookup,
      (d.map (fun p => if p.1 == k then (k, v) else p)).find? (fun p => p.1 == k) =
        (d.find? (fun p => p.1 == k)).map (fun _ => (k, v)) := by
  intro d
  induction d with
  | nil => rfl
  | cons p d ih =>
    rw [List.map_cons]
    by_cases hp : p.1 = k
    · have hif : (if p.1 == k then (k, v) else p) = (k, v) := by simp [hp]
      rw [hif, List.find?_cons_of_pos _ (by simp), List.find?_cons_of_pos _ (by simp [hp])]
      simp
    · have hif : (if p.1 == k then (k, v) else p) = p := by simp [hp]
      rw [hif, List.find?_cons_of_neg _ (by simp [hp]),
        List.find?_cons_of_neg _ (by simp [hp]), ih]

theorem find?_set_map_ne (k k' : String) (v : IngredientRecord) (h : k' ≠ k) :
    ∀ d : Lookup,
      (d.map (fun p => if p.1 == k then (k, v) else p)).find? (fun p => p.1 == k') =
        d.find? (fun p => p.1 == k') := by
  intro d
  induction d with
  | nil => rfl
  | cons p d ih =>
    rw [List.map_cons]
    by_cases hp : p.1 = k
    · have hif : (if p.1 == k then (k, v) else p) = (k, v) := by simp [hp]
      rw [hif, List.find?_cons_of_neg _ (by simp; exact Ne.symm h),
        List.find?_cons_of_neg _ (by simp [hp]; exact Ne.symm h), ih]
    · have hif : (if p.1 == k then (k, v) else p) = p := by simp [hp]
      rw [hif]
      by_cases hk' : p.1 = k'
      · rw [List.find?_cons_of_pos _ (by simp [hk']), List.find?_cons_of_pos _ (by simp [hk'])]
      · rw [List.find?_cons_of_neg _ (by simp [hk']),
          List.find?_cons_of_neg _ (by simp [hk']), ih]

theorem lookupVal_dictInsert_self (d : Lookup) (k : String) (v : IngredientRecord) :
    lookupVal (dictInsert d k v) k = some v := by
  rw [dictInsert]
  by_cases hany : d.any (fun p => p.1 == k) = true
  · rw [if_pos hany, lookupVal, find?_set_map]
    obtain ⟨q, hq, hqk⟩ := List.any_eq_true.mp hany
    cases hfind : d.find? (fun p => p.1 == k) with
    | none => exact absurd hqk (List.find?_eq_none.mp hfind q hq)
    | some q' => simp
  · rw [if_neg hany, lookupVal, List.find?_append]
    have hd : d.find? (fun p => p.1 == k) = none :=
      List.find?_eq_none.mpr
        (fun x hx hpx => hany (List.any_eq_true.mpr ⟨x, hx, hpx⟩))
    rw [hd]
    simp

theorem lookupVal_dictInsert_ne (d : Lookup) (k : String) (v : IngredientRecord)
    (k' : String) (h : k' ≠ k) :
    lookupVal (dictInsert d k v) k' = lookupVal d k' := by
  rw [dictInsert]
  by_cases hany : d.any (fun p => p.1 == k) = true
  · rw [if_pos hany, lookupVal, lookupVal, find?_set_map_ne k k' v h]
  · rw [if_neg hany, lookupVal, lookupVal, List.find?_append]
    have hone : ([(k, v)].find? (fun p => p.1 == k')) = none := by
      simp [Ne.symm h]
    rw [hone, Option.or_none]

theorem keys_dictInsert_mem (d : Lookup) (k : String) (v : IngredientRecord)
    (hany : d.any (fun p => p.1 == k) = true) :
    (dictInsert d k v).map Prod.fst = d.map Prod.fst := by
  rw [dictInsert, if_pos hany, List.map_map]
  apply List.map_congr_left
  intro p _
  by_cases hpk : p.1 = k
  · simp [Function.comp, hpk]
  · simp [Function.comp, hpk]

theorem keys_dictInsert_new (d : Lookup) (k : String) (v : IngredientRecord)
    (hany : ¬ d.any (fun p => p.1 == k) = true) :
    (dictInsert d k v).map Prod.fst = d.map Prod.fst ++ [k] := by
  rw [dictInsert, if_neg hany, List.map_append]
  rfl

theorem nodup_keys_dictInsert (d : Lookup) (k : String) (v : IngredientRecord)
    (h : (d.map Prod.fst).Nodup) : ((dictInsert d k v).map Prod.fst).Nodup := by
  by_cases hany : d.any (fun p => p.1 == k) = true
  · rw [keys_dictInsert_mem d k v hany]; exact h
  · rw [keys_dictInsert_new d k v hany, List.nodup_append]
    refine ⟨h, List.nodup_singleton k, ?_⟩
    intro x hx hxk
    rcases List.mem_map.mp hx with ⟨p, hp, hpx⟩
    have hxeq : x = k := List.mem_singleton.mp hxk
    exact hany (List.any_eq_true.mpr ⟨p, hp, by simp [hpx, hxeq]⟩)

/-! ### Index construction: iteration from the right -/

theorem buildLookup_append (db : List IngredientRecord) (e : IngredientRecord) :
    buildLookup (db ++ [e]) = dictInsert (buildLookup db) (normalise e.ingredient) e := by
  rw [buildLookup, buildLookup, List.foldl_append]
  rfl

theorem buildLookup_keys_nodup (db : List IngredientRecord) :
    ((buildLookup db).map Prod.fst).Nodup := by
  induction db using List.reverseRecOn with
  | nil => simp [buildLookup]
  | append_singleton db e ih =>
    rw [buildLookup_append]
    exact nodup_keys_dictInsert _ _ _ ih

theorem buildLookup_lastWins (db : List IngredientRecord) (k : String) :
    lookupVal (buildLookup db) k =
      (db.filter (fun e => normalise e.ingredient == k)).getLast? := by
  induction db using List.reverseRecOn with
  | nil => simp [buildLookup, lookupVal]
  | append_singleton db e ih =>
    rw [buildLookup_append, List.filter_append]
    by_cases he : normalise e.ingredient = k
    · rw [he, lookupVal_dictInsert_self]
      have hone : [e].filter (fun e => normalise e.ingredient == k) = [e] := by simp [he]
      rw [hone, List.getLast?_concat]
    · rw [lookupVal_dictInsert_ne _ _ _ _ (Ne.symm he)]
      have hone : [e].filter (fun e => normalise e.ingredient == k) = [] := by simp [he]
      rw [hone, List.append_nil]
      exact ih

/-! ### The tier-3 fold tracks the maximum score and a record attaining it -/

theorem bestPass_fold_spec (n : String) :
    ∀ (l : Lookup) (init : ℚ × Option IngredientRecord),
      init.1 ≤ (l.foldl
          (fun acc kr => if acc.1 < ratio n kr.1 then (ratio n kr.1, some kr.2) else acc)
          init).1 ∧
      (∀ p ∈ l, ratio n p.1 ≤ (l.foldl
          (fun acc kr => if acc.1 < ratio n kr.1 then (ratio n kr.1, some kr.2) else acc)
          init).1) ∧
      ((l.foldl
          (fun acc kr => if acc.1 < ratio n kr.1 then (ratio n kr.1, some kr.2) else acc)
          init) = init ∨
        ∃ p ∈ l, (l.foldl
          (fun acc kr => if acc.1 < ratio n kr.1 then (ratio n kr.1, some kr.2) else acc)
          init) = (ratio n p.1, some p.2)) := by
  intro l
  induction l with
  | nil => intro init; exact ⟨le_refl _, by simp, Or.inl rfl⟩
  | cons kr l ih =>
    intro init
    simp only [List.foldl_cons]
    set init' : ℚ × Option IngredientRecord :=
      if init.1 < ratio n kr.1 then (ratio n kr.1, some kr.2) else init with hinit'
    obtain ⟨ihle, ihub, ihmem⟩ := ih init'
    have hle1 : init.1 ≤ init'.1 := by
      rw [hinit']; split
      · exact le_of_lt (by assumption)
      · exact le_refl _
    have hkr : ratio n kr.1 ≤ init'.1 := by
      rw [hinit']; split
      · exact le_refl _
      · exact le_of_not_lt (by assumption)
    refine ⟨le_trans hle1 ihle, ?_, ?_⟩
    · intro p hp
      rcases List.mem_cons.mp hp with hp | hp
      · subst hp; exact le_trans hkr ihle
      · exact ihub p hp
    · rcases ihmem with heq | ⟨p, hp, heq⟩
      · rw [heq, hinit']
        split
        · exact Or.inr ⟨kr, List.mem_cons_self kr l, rfl⟩
        · exact Or.inl rfl
      · exact Or.inr ⟨p, List.mem_cons_of_mem kr hp, heq⟩

/-! ### The empty pattern is contained in every string -/

theorem startsWithL_nil (t : List Char) : startsWithL [] t = true := by
  cases t <;> rfl

theorem containsL_nil (t : List Char) : containsL [] t = true := by
  cases t with
  | nil => rfl
  | cons c ts => simp [containsL, startsWithL_nil]

theorem substrOf_empty (s : String) : substrOf "" s = true := by
  rw [substrOf]
  exact containsL_nil s.data

/-! ## The claims -/

/-- C1: tier 1 takes strict priority.  Whenever the normalised candidate is
itself a key of the index (whose keys, coming from a dict, are unique),
`fuzzy_match_ingredient` returns the record stored under that key, whatever
the threshold and whatever tiers 2 and 3 would have produced. -/
theorem exact_match_takes_priority (lookup : Lookup) (name : String) (threshold : ℚ)
    (r : IngredientRecord)
    (hnd : (lookup.map Prod.fst).Nodup)
    (hmem : (normalise name, r) ∈ lookup) :
    fuzzy_match_ingredient lookup name threshold = some r ∧
    match_one lookup name threshold = MatchResult.Matched r := by
  have hfind : lookup.find? (fun p => p.1 == normalise name) = some (normalise name, r) :=
    find?_beq_of_mem_nodup lookup (normalise name) r hnd hmem
  have h1 : fuzzy_match_ingredient lookup name threshold = some r := by
    simp [fuzzy_match_ingredient, hfind]
  exact ⟨h1, by simp [match_one, h1]⟩

theorem exact_match_takes_priority_witness :
    fuzzy_match_ingredient exLookup "SUGAR " defaultThreshold = some sugarRec ∧
    match_one exLookup "SUGAR " defaultThreshold = MatchResult.Matched sugarRec :=
  exact_match_takes_priority exLookup "SUGAR " defaultThreshold sugarRec
    (by decide) (by decide)

/-- C2: when no exact key matches, the containment tier returns the record
of the first key in the index's insertion order that is a substring of the
normalised candidate or contains it — first in iteration order, not best or
longest. -/
theorem containment_first_key_wins (lookup : Lookup) (name : String) (threshold : ℚ)
    (i : Nat) (hi : i < lookup.length)
    (hnokey : ∀ p ∈ lookup, p.1 ≠ normalise name)
    (hit : (substrOf (lookup.get ⟨i, hi⟩).1 (normalise name) ||
        substrOf (normalise name) (lookup.get ⟨i, hi⟩).1) = true)
    (hfirst : ∀ j (hj : j < i),
      (substrOf (lookup.get ⟨j, Nat.lt_trans hj hi⟩).1 (normalise name) ||
        substrOf (normalise name) (lookup.get ⟨j, Nat.lt_trans hj hi⟩).1) = false) :
    fuzzy_match_ingredient lookup name threshold = some (lookup.get ⟨i, hi⟩).2 := by
  have h1 : lookup.find? (fun kr => kr.1 == normalise name) = none :=
    find?_eq_none_of_all _ _ (fun p hp => beq_eq_false_iff_ne.mpr (hnokey p hp))
  have h2 : lookup.find? (fun kr =>
      substrOf kr.1 (normalise name) || substrOf (normalise name) kr.1) =
      some (lookup.get ⟨i, hi⟩) :=
    find?_eq_of_first _ lookup i hi hit hfirst
  simp [fuzzy_match_ingredient, h1, h2]

theorem containment_first_key_wins_witness :
    fuzzy_match_ingredient exLookup "Citric Acid (E330)" defaultThreshold =
      some (exLookup.get ⟨2, by decide⟩).2 :=
  containment_first_key_wins exLookup "Citric Acid (E330)" defaultThreshold 2
    (by decide) (by decide) (by decide) (by decide)

/-- C3: when tiers 1 and 2 both fail, the similarity tier scans every key
(never short-circuiting): the tracked score bounds the ratio of every key
from above, the tracked record is one attaining that score, a score at or
above the threshold returns the tracked record, and a score below it makes
`match_one` return `Unmatched` carrying the original candidate. -/
theorem similarity_tier_max_tracking (lookup : Lookup) (name : String) (threshold : ℚ)
    (hnokey : ∀ p ∈ lookup, p.1 ≠ normalise name)
    (hnocontain : ∀ p ∈ lookup,
      (substrOf p.1 (normalise name) || substrOf (normalise name) p.1) = false) :
    (∀ p ∈ lookup, ratio (normalise name) p.1 ≤ (bestPass lookup (normalise name)).1) ∧
    (∀ r, (bestPass lookup (normalise name)).2 = some r →
      ∃ p ∈ lookup, p.2 = r ∧
        ratio (normalise name) p.1 = (bestPass lookup (normalise name)).1) ∧
    (threshold ≤ (bestPass lookup (normalise name)).1 →
      fuzzy_match_ingredient lookup name threshold = (bestPass lookup (normalise name)).2) ∧
    ((bestPass lookup (normalise name)).1 < threshold →
      match_one lookup name threshold = MatchResult.Unmatched name) := by
  have h1 : lookup.find? (fun kr => kr.1 == normalise name) = none :=
    find?_eq_none_of_all _ _ (fun p hp => beq_eq_false_iff_ne.mpr (hnokey p hp))
  have h2 : lookup.find? (fun kr =>
      substrOf kr.1 (normalise name) || substrOf (normalise name) kr.1) = none :=
    find?_eq_none_of_all _ _ hnocontain
  have hfm : fuzzy_match_ingredient lookup name threshold =
      (if threshold ≤ (bestPass lookup (normalise name)).1 then
        (bestPass lookup (normalise name)).2 else none) := by
    simp [fuzzy_match_ingredient, h1, h2]
  obtain ⟨hinit, hub, hmem⟩ := bestPass_fold_spec (normalise name) lookup (0, none)
  refine ⟨?_, ?_, ?_, ?_⟩
  · intro p hp
    rw [bestPass]
    exact hub p hp
  · intro r hr
    rw [bestPass] at hr
    rcases hmem with heq | ⟨p, hp, heq⟩
    · rw [heq] at hr
      exact absurd hr (by simp)
    · rw [heq] at hr
      refine ⟨p, hp, by simpa using hr, ?_⟩
      rw [bestPass, heq]
  · intro hth
    rw [hfm, if_pos hth]
  · intro hlt
    have hnone : fuzzy_match_ingredient lookup name threshold = none := by
      rw [hfm, if_neg (not_le.mpr hlt)]
    simp [match_one, hnone]

theorem similarity_tier_max_tracking_witness :
    fuzzy_match_ingredient exLookup "suger" defaultThreshold =
      (bestPass exLookup (normalise "suger")).2 :=
  (similarity_tier_max_tracking exLookup "suger" defaultThreshold
    (by decide) (by decide)).2.2.1 (by decide)

/-- C4: `retrieve_knowledge` deduplicates matched records by `id`: the
matched output is exactly the first-seen-id dedup of the stream of
successful matches (so each id appears at most once, in first-seen order),
and a candidate that did match — even one whose id was already seen and
was therefore dropped — is never added to the unmatched output. -/
theorem retrieve_dedups_by_id (lookup : Lookup) (names : List String) :
    (retrieve_knowledge lookup names).1 =
      dedupByIds []
        (names.filterMap (fun n => fuzzy_match_ingredient lookup n defaultThreshold)) ∧
    ((retrieve_knowledge lookup names).1.map (fun r => r.id)).Nodup ∧
    (∀ n ∈ names, (fuzzy_match_ingredient lookup n defaultThreshold).isSome →
      n ∉ (retrieve_knowledge lookup names).2) := by
  have hs := retrieve_spec lookup names
  refine ⟨?_, ?_, ?_⟩
  · rw [hs]
  · rw [hs]
    exact (dedupByIds_ids_fresh _ []).1
  · intro n hn hsome hmem
    rw [hs] at hmem
    have hnone := (List.mem_filter.mp hmem).2
    simp only [Option.isNone_iff_eq_none, decide_eq_true_eq] at hnone
    rw [hnone] at hsome
    exact absurd hsome (by simp)

theorem retrieve_dedups_by_id_witness :
    ((retrieve_knowledge exLookup ["Sugar", "sugar ", "Water"]).1.map
      (fun r => r.id)).Nodup ∧
    "sugar " ∉ (retrieve_knowledge exLookup ["Sugar", "sugar ", "Water"]).2 :=
  ⟨(retrieve_dedups_by_id exLookup ["Sugar", "sugar ", "Water"]).2.1,
    (retrieve_dedups_by_id exLookup ["Sugar", "sugar ", "Water"]).2.2
      "sugar " (by decide) (by decide)⟩

/-- C5 (counterexample to the claim as stated): building the index from a
record set containing a record with an empty name does NOT fail — there is
no `InvalidRecordError` anywhere in the loader, and the empty name is
silently indexed under the empty-string key. -/
theorem build_accepts_empty_name :
    buildLookupE [emptyNameEntry] =
      Except.ok [("", ⟨7, "", "additive", "no effect", "no known effect"⟩)] := by
  rfl

/-- C5 (amended): index construction performs no validation: it succeeds on
every record set whose entries all carry the name field, however empty the
names are (a truly missing field surfaces as Python's `KeyError`, not as any
`InvalidRecordError`); and matching never fails — every candidate resolves
to a `Matched` record or to an `Unmatched` marker carrying the candidate. -/
theorem build_total_without_validation :
    (∀ db : List RawEntry, (∀ e ∈ db, e.ingredient.isSome) →
      ∃ d, buildLookupE db = Except.ok d) ∧
    (∀ (lookup : Lookup) (c : String) (th : ℚ),
      (∃ r, match_one lookup c th = MatchResult.Matched r) ∨
        match_one lookup c th = MatchResult.Unmatched c) := by
  constructor
  · have h : ∀ (db : List RawEntry) (acc : Lookup), (∀ e ∈ db, e.ingredient.isSome) →
        ∃ d, db.foldlM
          (fun d e =>
            match e.ingredient with
            | none => Except.error LoadError.keyError
            | some nm => Except.ok (dictInsert d (normalise nm) (toRecord e nm)))
          acc = Except.ok d := by
      intro db
      induction db with
      | nil => intro acc _; exact ⟨acc, rfl⟩
      | cons e db ih =>
        intro acc hall
        cases he : e.ingredient with
        | none =>
          exact absurd (hall e (List.mem_cons_self e db)) (by simp [he])
        | some nm =>
          obtain ⟨d, hd⟩ := ih (dictInsert acc (normalise nm) (toRecord e nm))
            (fun x hx => hall x (List.mem_cons_of_mem e hx))
          exact ⟨d, by simp only [List.foldlM_cons, he]; exact hd⟩
    intro db hall
    simpa [buildLookupE] using h db [] hall
  · intro lookup c th
    cases hfm : fuzzy_match_ingredient lookup c th with
    | some r => exact Or.inl ⟨r, by simp [match_one, hfm]⟩
    | none => exact Or.inr (by simp [match_one, hfm])

theorem build_total_without_validation_witness :
    ∃ d, buildLookupE [emptyNameEntry] = Except.ok d :=
  build_total_without_validation.1 [emptyNameEntry] (by decide)

/-- C6: the built index maps every key to exactly one record (its keys are
duplicate-free), and the value stored under any key is the LAST record of
the source sequence whose name normalises to that key — last write wins. -/
theorem lookup_last_write_wins (db : List IngredientRecord) (k : String) :
    ((buildLookup db).map Prod.fst).Nodup ∧
    lookupVal (buildLookup db) k =
      (db.filter (fun e => normalise e.ingredient == k)).getLast? :=
  ⟨buildLookup_keys_nodup db, buildLookup_lastWins db k⟩

/-- C7: the unmatched output is exactly the in-order subsequence of
candidates whose match came back `Unmatched`, each reported with its
original, pre-normalisation text. -/
theorem unmatched_verbatim_in_order (lookup : Lookup) (names : List String) :
    (retrieve_knowledge lookup names).2 =
      names.filter (fun n => (fuzzy_match_ingredient lookup n defaultThreshold).isNone) ∧
    (∀ n ∈ names, match_one lookup n defaultThreshold = MatchResult.Unmatched n →
      n ∈ (retrieve_knowledge lookup names).2) ∧
    List.Sublist (retrieve_knowledge lookup names).2 names := by
  have hs := retrieve_spec lookup names
  have h2 : (retrieve_knowledge lookup names).2 =
      names.filter (fun n => (fuzzy_match_ingredient lookup n defaultThreshold).isNone) := by
    rw [hs]
  refine ⟨h2, ?_, ?_⟩
  · intro n hn hun
    rw [h2, List.mem_filter]
    refine ⟨hn, ?_⟩
    cases hfm : fuzzy_match_ingredient lookup n defaultThreshold with
    | some r =>
      rw [match_one, hfm] at hun
      exact absurd hun (by simp)
    | none => simp [hfm]
  · rw [h2]
    exact List.filter_sublist names

theorem unmatched_verbatim_in_order_witness :
    "Water" ∈ (retrieve_knowledge exLookup ["Sugar", "sugar ", "Water"]).2 :=
  (unmatched_verbatim_in_order exLookup ["Sugar", "sugar ", "Water"]).2.1
    "Water" (by decide) (by decide)

/-- C8: every candidate is accounted for in exactly one of two ways — its
match's id appears among the matched output's ids, and then it is absent
from unmatched; or it failed to match and appears verbatim in unmatched.
No candidate is dropped from both outputs. -/
theorem every_candidate_accounted (lookup : Lookup) (names : List String) (n : String)
    (hn : n ∈ names) :
    (∃ r, fuzzy_match_ingredient lookup n defaultThreshold = some r ∧
      r.id ∈ (retrieve_knowledge lookup names).1.map (fun q => q.id) ∧
      n ∉ (retrieve_knowledge lookup names).2) ∨
    (fuzzy_match_ingredient lookup n defaultThreshold = none ∧
      n ∈ (retrieve_knowledge lookup names).2) := by
  have hs := retrieve_spec lookup names
  cases hfm : fuzzy_match_ingredient lookup n defaultThreshold with
  | none =>
    refine Or.inr ⟨rfl, ?_⟩
    rw [hs]
    exact List.mem_filter.mpr ⟨hn, by simp [hfm]⟩
  | some r =>
    refine Or.inl ⟨r, rfl, ?_, ?_⟩
    · have hrs : r ∈ names.filterMap
          (fun n => fuzzy_match_ingredient lookup n defaultThreshold) :=
        List.mem_filterMap.mpr ⟨n, hn, hfm⟩
      rcases dedupByIds_covers _ [] r hrs with ⟨q, hq, hqid⟩ | hfalse
      · rw [hs]
        exact List.mem_map.mpr ⟨q, hq, hqid⟩
      · exact absurd hfalse (List.not_mem_nil _)
    · intro hmem
      rw [hs] at hmem
      have hnone := (List.mem_filter.mp hmem).2
      simp [hfm] at hnone

theorem every_candidate_accounted_witness :
    (∃ r, fuzzy_match_ingredient exLookup "sugar " defaultThreshold = some r ∧
      r.id ∈ (retrieve_knowledge exLookup ["Sugar", "sugar ", "Water"]).1.map
        (fun q => q.id) ∧
      "sugar " ∉ (retrieve_knowledge exLookup ["Sugar", "sugar ", "Water"]).2) ∨
    (fuzzy_match_ingredient exLookup "sugar " defaultThreshold = none ∧
      "sugar " ∈ (retrieve_knowledge exLookup ["Sugar", "sugar ", "Water"]).2) :=
  every_candidate_accounted exLookup ["Sugar", "sugar ", "Water"] "sugar " (by decide)

/-- C9: `retrieve_knowledge` is pure and deterministic: the loop leaves the
lookup table exactly as it found it, so a second run over the same
candidate list — fed the table the first run finished with — reproduces the
first run's state and its `(matched, unmatched)` output verbatim. -/
theorem retrieve_pure_idempotent (lookup : Lookup) (names : List String) :
    (runRetrieve lookup names).lookup = lookup ∧
    runRetrieve (runRetrieve lookup names).lookup names = runRetrieve lookup names ∧
    retrieve_knowledge (runRetrieve lookup names).lookup names =
      retrieve_knowledge lookup names := by
  have hl := runRetrieve_lookup lookup names
  exact ⟨hl, by rw [hl], by rw [hl]⟩

/-- C10: a candidate that normalises to the empty string, against a
non-empty index none of whose keys is empty, is matched by tier 2 to the
first key in insertion order (the empty string is a substring of every
key), and is never reported `Unmatched`. -/
theorem empty_candidate_first_key (lookup : Lookup) (name : String) (threshold : ℚ)
    (p : String × IngredientRecord) (rest : Lookup)
    (hlk : lookup = p :: rest)
    (hempty : normalise name = "")
    (hnokey : ∀ q ∈ lookup, q.1 ≠ "") :
    fuzzy_match_ingredient lookup name threshold = some p.2 ∧
    match_one lookup name threshold ≠ MatchResult.Unmatched name := by
  subst hlk
  have h1 : (p :: rest).find? (fun kr => kr.1 == normalise name) = none := by
    rw [hempty]
    exact find?_eq_none_of_all _ _ (fun q hq => beq_eq_false_iff_ne.mpr (hnokey q hq))
  have h2 : (p :: rest).find? (fun kr =>
      substrOf kr.1 (normalise name) || substrOf (normalise name) kr.1) = some p := by
    rw [hempty]
    exact List.find?_cons_of_pos _ (by simp [substrOf_empty p.1])
  have hf : fuzzy_match_ingredient (p :: rest) name threshold = some p.2 := by
    simp [fuzzy_match_ingredient, h1, h2]
  exact ⟨hf, by simp [match_one, hf]⟩

theorem empty_candidate_first_key_witness :
    fuzzy_match_ingredient exLookup "   " defaultThreshold = some sugarRec :=
  (empty_candidate_first_key exLookup "   " defaultThreshold ("sugar", sugarRec)
    [("salt", saltRec), ("citric acid", citricRec)]
    (by decide) (by decide) (by decide)).1
